import Mathlib

/-!
Shallow embedding of the `hui` shell-history picker (`src/main.rs`).

Part 1 models the history ingestion pipeline (`mod history`): bytes are
natural numbers, a history entry is its byte string (`List Nat`), so a
`History` (`Vec<String>`) is a list of byte strings.  Rust's UTF-8
validation is byte-transparent (`from_bytes` splits the validated string
and rebuilds each piece from its bytes unchanged), so it is not modelled;
operations that can panic are modelled with `Option`.

Part 2 models the interactive session (`StatefulList`, `App`, the key
handling of `run_app`, `App::on_tick` and the output logic of `main`).
-/

namespace history

/-- `pub type History = Vec<String>` (main.rs:448), at the byte level. -/
abbrev History := List (List Nat)

/-- `unmetafy` (main.rs:524-542): loop over the byte string in reverse;
every meta byte `0x83` is removed and the byte now at its index is XORed
with 32.  Processing the tail first is the same as Rust's
`for index in (0..len).rev()` loop, since a removal at an index never
moves the bytes before it.  When the removed meta byte was the last byte,
Rust's `bytestring[index] ^= 32` reads past the end and panics: that case
is `none` here. -/
def unmetafy : List Nat → Option (List Nat)
  | [] => some []
  | x :: rest =>
    match unmetafy rest with
    | none => none
    | some r =>
      if x = 0x83 then
        match r with
        | [] => none
        | y :: ys => some ((y ^^^ 32) :: ys)
      else some (x :: r)

/-- Splitting a byte string on the three-byte delimiter `"\n: "` =
`[10, 58, 32]`, leftmost match first, keeping empty pieces — the
semantics of Rust `str::split` used by `from_bytes` for zsh. -/
def splitZsh : List Nat → List (List Nat)
  | [] => [[]]
  | 10 :: 58 :: 32 :: rest => [] :: splitZsh rest
  | x :: rest =>
    match splitZsh rest with
    | [] => [[x]]
    | p :: ps => (x :: p) :: ps

/-- Splitting a byte string on the newline byte `10`, keeping empty
pieces — the semantics of Rust `str::split` used by `from_bytes` for
bash. -/
def splitBash : List Nat → List (List Nat)
  | [] => [[]]
  | 10 :: rest => [] :: splitBash rest
  | x :: rest =>
    match splitBash rest with
    | [] => [[x]]
    | p :: ps => (x :: p) :: ps

/-- `History::from_bytes` (main.rs:454-473): split on `"\n: "` when the
history type is `"zsh"`, on `"\n"` otherwise.  Each piece is kept as its
byte string. -/
def from_bytes (bytes : List Nat) (history_type : String) : History :=
  if history_type = "zsh" then splitZsh bytes else splitBash bytes

/-- An ASCII digit byte, the bytes matched by `\d` in the timestamp
regexes. -/
def isAsciiDigit (b : Nat) : Bool :=
  48 ≤ b && b ≤ 57

/-- Match the regex fragment `\d{10}:\d;` at the front of `l`, returning
the remainder after it. -/
def matchStamp (l : List Nat) : Option (List Nat) :=
  if (l.take 10).length = 10 && (l.take 10).all isAsciiDigit then
    match l.drop 10 with
    | 58 :: d :: 59 :: rest => if isAsciiDigit d then some rest else none
    | _ => none
  else none

/-- `regex_rest.replace(line, "")` with `regex_rest = ^\d{10}:\d;`
(main.rs:571-575): strip the timestamp prefix when present. -/
def stripStamp (l : List Nat) : List Nat :=
  match matchStamp l with
  | some rest => rest
  | none => l

/-- `regex_first.replace(first, "")` with `regex_first = ^: \d{10}:\d;`
(main.rs:566-568): strip the leading `": "` (bytes `58, 32`) and
timestamp when present. -/
def stripStampFirst (l : List Nat) : List Nat :=
  match l with
  | 58 :: 32 :: rest =>
    match matchStamp rest with
    | some r => r
    | none => l
  | _ => l

/-- `remove_timestamps` (main.rs:544-576): replace entry 0 by its
`regex_first`-stripped form, then map the `regex_rest` strip over every
entry (including the already rewritten entry 0).  On an empty history
Rust's `history.get(0).unwrap()` panics; that case is unreachable from
`process_history` because `from_bytes` never returns an empty list. -/
def remove_timestamps : History → History
  | [] => []
  | first :: rest => (stripStampFirst first :: rest).map stripStamp

/-- `remove_empty` (main.rs:578-581): `history.retain(|line| line != "")`. -/
def remove_empty (h : History) : History :=
  h.filter fun line => line != ([] : List Nat)

/-- `reverse` (main.rs:583-586). -/
def reverse (h : History) : History :=
  h.reverse

/-- `itertools::unique` keeps the first occurrence of each element,
skipping any element already in the set of elements seen so far. -/
def uniqueAux (seen : List (List Nat)) : History → History
  | [] => []
  | x :: xs => if x ∈ seen then uniqueAux seen xs else x :: uniqueAux (x :: seen) xs

/-- `remove_duplicates` (main.rs:588-591):
`history.into_iter().unique().collect()`. -/
def remove_duplicates (h : History) : History :=
  uniqueAux [] h

/-- `process_history` (main.rs:509-522).  The zsh branch first unescapes
the raw bytes; a panic of `unmetafy` is propagated as `none`. -/
def process_history (h : List Nat) (history_type : String) : Option History :=
  if history_type = "zsh" then
    match unmetafy h with
    | none => none
    | some bs =>
      some (reverse (remove_duplicates (remove_empty (remove_timestamps
        (from_bytes bs history_type)))))
  else
    some (reverse (remove_duplicates (remove_empty
      (from_bytes h history_type))))

end history

/-- `InputMode` (main.rs:33-36). -/
inductive InputMode
  | Normal
  | Editing
deriving DecidableEq

/-- `StatefulList<String>` (main.rs:28-31); `selected` is the ratatui
`ListState` selection index. -/
structure StatefulList where
  selected : Option Nat
  items : List String
deriving DecidableEq

namespace StatefulList

/-- `StatefulList::with_items` (main.rs:39-49): wrap the items and select
the first element. -/
def with_items (items : List String) : StatefulList :=
  { selected := some 0, items := items }

/-- `StatefulList::next` (main.rs:51-65). -/
def next (sl : StatefulList) : StatefulList :=
  let i :=
    match sl.selected with
    | some i =>
      if sl.items.length = 0 then 0
      else if i ≥ sl.items.length - 1 then 0
      else i + 1
    | none => 0
  { sl with selected := some i }

/-- `StatefulList::previous` (main.rs:67-81). -/
def previous (sl : StatefulList) : StatefulList :=
  let i :=
    match sl.selected with
    | some i =>
      if sl.items.length = 0 then 0
      else if i = 0 then sl.items.length - 1
      else i - 1
    | none => 0
  { sl with selected := some i }

/-- `StatefulList::selected_index` (main.rs:83-92). -/
def selected_index (sl : StatefulList) : Nat :=
  match sl.selected with
  | some i => i
  | none => 0

end StatefulList

/-- `App` (main.rs:101-111): the session state.  The clipboard handle,
layout chunks and matcher handle are I/O resources, not state; the
matcher is passed to `on_tick` as a score function.  The query `input`
is kept as a list of characters with `input_pos` a character offset
(Rust keeps a byte offset into a `String`; the two agree on single-byte
characters, and `input.width()` is modelled as the character count). -/
structure App where
  full_history : List String
  items : StatefulList
  input : List Char
  input_pos : Nat
  input_prev : List Char
  input_mode : InputMode
deriving DecidableEq

/-- `pattern` occurs as a subsequence of `choice`: its characters appear
in order, with arbitrary gaps. -/
def isSubseq : List Char → List Char → Bool
  | [], _ => true
  | _ :: _, [] => false
  | p :: ps, c :: cs => if p = c then isSubseq ps cs else isSubseq (p :: ps) cs

/-- Modelled from the spec: `SkimMatcherV2::fuzzy_match` comes from the
external `fuzzy_matcher` crate, whose code is not part of this
repository.  Per the spec it computes "a fuzzy subsequence-match score
against the query", an "entry with no match for the query is excluded
entirely" (`none`), and the empty query matches every entry alike (the
spec's empty-query identity).  The score of a non-empty matching query is
left abstract as `score`. -/
def fuzzy_match (score : List Char → List Char → Int) (choice pattern : List Char) :
    Option Int :=
  if pattern = [] then some 0
  else if isSubseq pattern choice then some (score choice pattern) else none

/-- `App::on_tick` (main.rs:128-155): in `Editing`, when the query
changed since the last observed value, re-rank: keep the entries the
matcher scores, sort by descending score (Rust `sort_by` is a stable
sort, modelled by `mergeSort`), rebuild the list state from the sorted
matches, and finally record the current query as `input_prev`. -/
def App.on_tick (score : List Char → List Char → Int) (a : App) : App :=
  match a.input_mode with
  | InputMode.Editing =>
    let a' :=
      if a.input_prev ≠ a.input then
        let scored := a.full_history.filterMap fun s =>
          (fuzzy_match score s.toList a.input).map fun sc => (sc, s)
        let sorted_matches :=
          (scored.mergeSort fun x y => decide (y.1 ≤ x.1)).map fun m => m.2
        { a with items := StatefulList.with_items sorted_matches }
      else a
    { a' with input_prev := a.input }
  | InputMode.Normal => a

/-- The key codes `run_app` inspects (crossterm `KeyCode`).  Only key
presses are modelled: the mouse branches depend on the rendered layout
rectangles, which the spec places outside the core. -/
inductive KeyCode
  | Enter
  | Up
  | Down
  | Left
  | Right
  | Backspace
  | Esc
  | Char (c : Char)
deriving DecidableEq

/-- The outcome of handling one key event in `run_app`'s loop
(main.rs:218-339): either the loop continues with an updated `App`, or
`run_app` returns `Ok(output)`, having first written `clipboard` (if
given) to the system clipboard. -/
inductive StepResult
  | cont (a : App)
  | exit (clipboard : Option String) (output : String)
deriving DecidableEq

/-- The key-event handling of `run_app` (main.rs:230-334) for one key
press.  In `Normal` mode: `/` enters editing with a cleared query, `q`
returns `Ok("")`, Down/Up move the selection, and Enter copies the entry
at the selected index (the empty string when the list has no entry
there, `main.rs:265-268`) to the clipboard and returns the message that
`main` prints.  In `Editing` mode: Enter/Up/Down merely switch back to
`Normal`, Left/Right/Char/Backspace edit the query, and Esc clears the
query, resets the list to the full history and returns to `Normal`. -/
def step (a : App) (key : KeyCode) : StepResult :=
  match a.input_mode with
  | InputMode.Normal =>
    match key with
    | KeyCode.Char c =>
      if c = '/' then
        StepResult.cont
          { a with input := [], input_pos := 0, input_mode := InputMode.Editing }
      else if c = 'q' then
        StepResult.exit none ""
      else
        StepResult.cont a
    | KeyCode.Down => StepResult.cont { a with items := a.items.next }
    | KeyCode.Up => StepResult.cont { a with items := a.items.previous }
    | KeyCode.Enter =>
      let val :=
        match a.items.items[a.items.selected_index]? with
        | some v => v
        | none => ""
      StepResult.exit (some val) ("Copied to clipboard: " ++ val)
    | _ => StepResult.cont a
  | InputMode.Editing =>
    match key with
    | KeyCode.Enter | KeyCode.Up | KeyCode.Down =>
      StepResult.cont { a with input_mode := InputMode.Normal }
    | KeyCode.Left =>
      if a.input_pos > 0 then StepResult.cont { a with input_pos := a.input_pos - 1 }
      else StepResult.cont a
    | KeyCode.Right =>
      let pos := a.input_pos + 1
      StepResult.cont
        { a with input_pos := if pos > a.input.length then a.input.length else pos }
    | KeyCode.Char c =>
      StepResult.cont
        { a with input := a.input.insertIdx a.input_pos c,
                 input_pos := a.input_pos + 1 }
    | KeyCode.Backspace =>
      if a.input_pos > 0 ∧ a.input_pos - 1 < a.input.length then
        StepResult.cont
          { a with input := a.input.eraseIdx (a.input_pos - 1),
                   input_pos := a.input_pos - 1 }
      else StepResult.cont a
    | KeyCode.Esc =>
      StepResult.cont
        { a with input := [], input_pos := 0,
                 items := StatefulList.with_items a.full_history,
                 input_mode := InputMode.Normal }

/-- What `main` (main.rs:200-207) prints on `Ok(resp)`: the response only
when it is non-empty, nothing otherwise. -/
def emitted : StepResult → Option String
  | StepResult.exit _ output => if output = "" then none else some output
  | StepResult.cont _ => none

theorem unmetafy_length :
    ∀ (l r : List Nat), history.unmetafy l = some r →
      r.length = l.length - l.count 131 := by
  intro l
  induction l with
  | nil =>
    intro r h
    simp [history.unmetafy] at h
    subst h
    simp
  | cons x xs ih =>
    intro r h
    cases hx : history.unmetafy xs with
    | none => simp only [history.unmetafy, hx] at h; exact Option.noConfusion h
    | some r' =>
      simp only [history.unmetafy, hx] at h
      by_cases hm : x = 131
      · subst hm
        rw [if_pos rfl] at h
        cases r' with
        | nil => simp at h
        | cons y ys =>
          simp only [Option.some.injEq] at h
          have hlen := ih (y :: ys) hx
          have hc : xs.count 131 ≤ xs.length := List.count_le_length 131 xs
          simp only [← h, List.length_cons, List.count_cons]
          simp only [List.length_cons] at hlen
          simp
          omega
      · rw [if_neg hm] at h
        simp only [Option.some.injEq] at h
        have hlen := ih r' hx
        have hc : xs.count 131 ≤ xs.length := List.count_le_length 131 xs
        simp only [← h, List.length_cons, List.count_cons]
        simp [hm, Ne.symm hm]
        omega

/-- Unfolding equation for `unmetafy` on a non-empty byte string. -/
theorem unmetafy_cons (x : Nat) (xs : List Nat) :
    history.unmetafy (x :: xs) =
      match history.unmetafy xs with
      | none => none
      | some r =>
        if x = 131 then
          match r with
          | [] => none
          | y :: ys => some ((y ^^^ 32) :: ys)
        else some (x :: r) := rfl

/-- When the final byte is the meta marker, the Rust loop's first
iteration removes it and the XOR access falls out of range. -/
theorem unmetafy_eq_none_of_getLast :
    ∀ l : List Nat, l.getLast? = some 131 → history.unmetafy l = none := by
  intro l
  induction l with
  | nil => intro h; simp at h
  | cons x xs ih =>
    intro h
    cases xs with
    | nil =>
      simp at h
      subst h
      simp [history.unmetafy]
    | cons y ys =>
      have hx : history.unmetafy (y :: ys) = none := by
        apply ih
        simpa [List.getLast?_cons_cons] using h
      rw [unmetafy_cons, hx]

/-- When the final byte is not the meta marker, every XOR access of the
loop is in range and unescaping succeeds. -/
theorem unmetafy_isSome_of_getLast :
    ∀ l : List Nat, l.getLast? ≠ some 131 → ∃ r, history.unmetafy l = some r := by
  intro l
  induction l with
  | nil => intro h2; exact ⟨[], rfl⟩
  | cons x xs ih =>
    intro h
    cases xs with
    | nil =>
      simp at h
      refine ⟨[x], ?_⟩
      simp [history.unmetafy, h]
    | cons y ys =>
      have hlast : (y :: ys).getLast? ≠ some 131 := by
        simpa [List.getLast?_cons_cons] using h
      obtain ⟨r, hr⟩ := ih hlast
      by_cases hm : x = 131
      · subst hm
        have hne : r ≠ [] := by
          intro hnil
          subst hnil
          have hlen := unmetafy_length (y :: ys) [] hr
          simp only [List.length_nil] at hlen
          have hcl : List.count 131 (y :: ys) ≤ (y :: ys).length :=
            List.count_le_length 131 (y :: ys)
          have hec : List.count 131 (y :: ys) = (y :: ys).length := by omega
          have hall := (List.count_eq_length).mp hec
          have hmem : (y :: ys).getLast (by simp) ∈ (y :: ys) :=
            List.getLast_mem (by simp)
          have h131 := hall _ hmem
          apply hlast
          rw [List.getLast?_eq_getLast (y :: ys) (by simp), ← h131]
        cases r with
        | nil => exact absurd rfl hne
        | cons z zs =>
          refine ⟨(z ^^^ 32) :: zs, ?_⟩
          rw [unmetafy_cons, hr]
          simp
      · refine ⟨x :: r, ?_⟩
        rw [unmetafy_cons, hr]
        simp [hm]

/-- Membership after `itertools::unique`: exactly the elements of the
input that were not already seen. -/
theorem mem_uniqueAux :
    ∀ (l : List (List Nat)) (seen : List (List Nat)) (a : List Nat),
      a ∈ history.uniqueAux seen l ↔ a ∈ l ∧ a ∉ seen := by
  intro l
  induction l with
  | nil => intro seen a; simp [history.uniqueAux]
  | cons x xs ih =>
    intro seen a
    by_cases hx : x ∈ seen
    · rw [show history.uniqueAux seen (x :: xs) = history.uniqueAux seen xs by
        simp [history.uniqueAux, hx]]
      rw [ih]
      constructor
      · rintro ⟨h1, h2⟩
        exact ⟨List.mem_cons_of_mem x h1, h2⟩
      · rintro ⟨h1, h2⟩
        rcases List.mem_cons.mp h1 with h1 | h1
        · subst h1; exact absurd hx h2
        · exact ⟨h1, h2⟩
    · rw [show history.uniqueAux seen (x :: xs)
          = x :: history.uniqueAux (x :: seen) xs by
        simp [history.uniqueAux, hx]]
      constructor
      · intro hmem
        rcases List.mem_cons.mp hmem with h1 | h1
        · subst h1; exact ⟨List.mem_cons_self _ _, hx⟩
        · obtain ⟨h2, h3⟩ := (ih (x :: seen) a).mp h1
          refine ⟨List.mem_cons_of_mem x h2, fun hc => h3 (List.mem_cons_of_mem x hc)⟩
      · rintro ⟨h1, h2⟩
        rcases List.mem_cons.mp h1 with h1 | h1
        · subst h1; exact List.mem_cons_self _ _
        · by_cases hax : a = x
          · subst hax; exact List.mem_cons_self _ _
          · refine List.mem_cons_of_mem x ((ih (x :: seen) a).mpr ⟨h1, ?_⟩)
            intro hc
            rcases List.mem_cons.mp hc with hc | hc
            · exact hax hc
            · exact h2 hc

/-- `itertools::unique` returns a duplicate-free list. -/
theorem nodup_uniqueAux :
    ∀ (l : List (List Nat)) (seen : List (List Nat)),
      (history.uniqueAux seen l).Nodup := by
  intro l
  induction l with
  | nil => intro seen; simp [history.uniqueAux]
  | cons x xs ih =>
    intro seen
    by_cases hx : x ∈ seen
    · rw [show history.uniqueAux seen (x :: xs) = history.uniqueAux seen xs by
        simp [history.uniqueAux, hx]]
      exact ih seen
    · rw [show history.uniqueAux seen (x :: xs)
          = x :: history.uniqueAux (x :: seen) xs by
        simp [history.uniqueAux, hx]]
      refine List.nodup_cons.mpr ⟨?_, ih (x :: seen)⟩
      intro hc
      exact ((mem_uniqueAux xs (x :: seen) x).mp hc).2 (List.mem_cons_self _ _)

/-- C1: in the corpus-building pipeline, deduplication keeps only the
first (oldest) occurrence of a repeated command and runs before the
final reversal: for oldest-to-newest input `"cmd1\ncmd2\ncmd1"` the
resulting corpus is `["cmd2", "cmd1"]` (byte strings), not
`["cmd1", "cmd2"]`; `remove_duplicates` keeps the early `"cmd1"`, and
`process_history` composes the reversal outside the deduplication. -/
theorem c1_dedup_keeps_first_before_reverse :
    history.process_history
        [99, 109, 100, 49, 10, 99, 109, 100, 50, 10, 99, 109, 100, 49] "bash"
      = some [[99, 109, 100, 50], [99, 109, 100, 49]]
    ∧ history.process_history
        [99, 109, 100, 49, 10, 99, 109, 100, 50, 10, 99, 109, 100, 49] "bash"
      ≠ some [[99, 109, 100, 49], [99, 109, 100, 50]]
    ∧ history.remove_duplicates
        [[99, 109, 100, 49], [99, 109, 100, 50], [99, 109, 100, 49]]
      = [[99, 109, 100, 49], [99, 109, 100, 50]]
    ∧ ∀ h : List Nat,
        history.process_history h "bash"
          = some (history.reverse (history.remove_duplicates (history.remove_empty
              (history.from_bytes h "bash")))) :=
  ⟨by decide, by decide, by decide, fun _ => rfl⟩

/-- C2: unescaping the zsh byte stream removes each meta marker `0x83`
and XORs the following byte with 32 — on `('a','b','c',0x83,0x10,'e','f')`
it yields `('a','b','c',0x10^32,'e','f')` — and in general the output
length is the input length minus the number of meta-marker bytes. -/
theorem c2_unmetafy_example_and_length :
    history.unmetafy [97, 98, 99, 131, 16, 101, 102]
      = some [97, 98, 99, 48, 101, 102]
    ∧ ∀ (l r : List Nat), history.unmetafy l = some r →
        r.length = l.length - l.count 131 :=
  ⟨by decide, fun l r h => unmetafy_length l r h⟩

theorem c2_unmetafy_example_and_length_witness :
    ([37] : List Nat).length
      = ([131, 5] : List Nat).length - ([131, 5] : List Nat).count 131 :=
  c2_unmetafy_example_and_length.2 [131, 5] [37] (by decide)

/-- C3: for every input byte sequence and every shell kind, when
`process_history` returns a corpus it contains no two equal entries and
no empty entry. -/
theorem c3_corpus_nodup_no_empty :
    ∀ (bytes : List Nat) (history_type : String) (h : history.History),
      history.process_history bytes history_type = some h →
      h.Nodup ∧ ∀ e ∈ h, e ≠ [] := by
  have tail_nodup : ∀ X : history.History,
      (history.reverse (history.remove_duplicates (history.remove_empty X))).Nodup := by
    intro X
    rw [history.reverse, List.nodup_reverse]
    exact nodup_uniqueAux _ []
  have tail_ne : ∀ (X : history.History) (e : List Nat),
      e ∈ history.reverse (history.remove_duplicates (history.remove_empty X)) →
      e ≠ [] := by
    intro X e he
    rw [history.reverse, List.mem_reverse] at he
    have h1 := ((mem_uniqueAux _ [] e).mp he).1
    rw [history.remove_empty] at h1
    have h2 := (List.mem_filter.mp h1).2
    simpa using h2
  intro bytes history_type h hp
  rw [history.process_history] at hp
  by_cases hz : history_type = "zsh"
  · rw [if_pos hz] at hp
    cases hu : history.unmetafy bytes with
    | none => rw [hu] at hp; exact Option.noConfusion hp
    | some bs =>
      rw [hu] at hp
      simp only [Option.some.injEq] at hp
      subst hp
      exact ⟨tail_nodup _, tail_ne _⟩
  · rw [if_neg hz] at hp
    simp only [Option.some.injEq] at hp
    subst hp
    exact ⟨tail_nodup _, tail_ne _⟩

theorem c3_corpus_nodup_no_empty_witness :
    ([] : history.History).Nodup ∧ ∀ e ∈ ([] : history.History), e ≠ [] :=
  c3_corpus_nodup_no_empty [] "bash" [] (by decide)

/-- C10: `unmetafy` performs only in-range index accesses — succeeds —
exactly when the input does not end with the meta marker `0x83`: when it
does, the XOR access after the final removal falls out of range
(modelled as `none`). -/
theorem c10_unmetafy_totality :
    ∀ l : List Nat,
      (l.getLast? ≠ some 131 → ∃ r, history.unmetafy l = some r)
      ∧ (l.getLast? = some 131 → history.unmetafy l = none) :=
  fun l => ⟨unmetafy_isSome_of_getLast l, unmetafy_eq_none_of_getLast l⟩

theorem c10_unmetafy_totality_witness :
    (∃ r, history.unmetafy [131, 5] = some r)
    ∧ history.unmetafy [5, 131] = none :=
  ⟨(c10_unmetafy_totality [131, 5]).1 (by decide),
   (c10_unmetafy_totality [5, 131]).2 (by decide)⟩

/-- One `next` on a valid selection advances the index by one modulo the
list length and leaves the items unchanged. -/
theorem next_selected_mod (sl : StatefulList) (i : Nat)
    (hsel : sl.selected = some i) (hlt : i < sl.items.length) :
    sl.next = ⟨some ((i + 1) % sl.items.length), sl.items⟩ := by
  have hpos : 0 < sl.items.length := Nat.lt_of_le_of_lt (Nat.zero_le i) hlt
  rw [StatefulList.next, hsel]
  by_cases hge : i ≥ sl.items.length - 1
  · have hi : i = sl.items.length - 1 := by omega
    have hmod : (i + 1) % sl.items.length = 0 := by
      rw [hi, Nat.sub_add_cancel hpos, Nat.mod_self]
    simp only [if_neg (by omega : ¬sl.items.length = 0), if_pos hge, hmod]
  · have hmod : (i + 1) % sl.items.length = i + 1 := Nat.mod_eq_of_lt (by omega)
    simp only [if_neg (by omega : ¬sl.items.length = 0), if_neg hge, hmod]

/-- Iterating `next` `k` times from a valid selection lands on the start
index shifted by `k`, modulo the length. -/
theorem iterate_next_selected :
    ∀ (k : Nat) (sl : StatefulList) (i : Nat),
      sl.selected = some i → i < sl.items.length →
      StatefulList.next^[k] sl = ⟨some ((i + k) % sl.items.length), sl.items⟩ := by
  intro k
  induction k with
  | zero =>
    intro sl i hsel hlt
    cases sl with
    | mk s it =>
      have hs : s = some i := hsel
      subst hs
      have hmod : (i + 0) % it.length = i := by
        simp only [Nat.add_zero]
        exact Nat.mod_eq_of_lt hlt
      simp only [Function.iterate_zero, id_eq]
      exact congrArg (fun v => StatefulList.mk (some v) it) hmod.symm
  | succ k ih =>
    intro sl i hsel hlt
    have hpos : 0 < sl.items.length := Nat.lt_of_le_of_lt (Nat.zero_le i) hlt
    rw [Function.iterate_succ_apply, next_selected_mod sl i hsel hlt]
    have hlt2 : (i + 1) % sl.items.length < sl.items.length := Nat.mod_lt _ hpos
    rw [ih ⟨some ((i + 1) % sl.items.length), sl.items⟩ ((i + 1) % sl.items.length)
      rfl hlt2]
    simp only
    rw [Nat.mod_add_mod]
    have harith : i + 1 + k = i + (k + 1) := by omega
    rw [harith]

/-- C7: on a view of length `N`, advancing `N` times from any valid index
returns the cursor to its starting index; retreating from index 0 lands
on index `N - 1`; and on an empty view both operations leave the cursor
at 0. -/
theorem c7_cursor_wraparound :
    (∀ (sl : StatefulList) (i : Nat),
      sl.selected = some i → i < sl.items.length →
      (StatefulList.next^[sl.items.length] sl).selected = some i)
    ∧ (∀ sl : StatefulList, sl.selected = some 0 →
        sl.previous.selected = some (sl.items.length - 1))
    ∧ (∀ sl : StatefulList, sl.items = [] →
        sl.next.selected = some 0 ∧ sl.previous.selected = some 0) := by
  refine ⟨?_, ?_, ?_⟩
  · intro sl i hsel hlt
    rw [iterate_next_selected sl.items.length sl i hsel hlt]
    simp only
    rw [Nat.add_mod_right, Nat.mod_eq_of_lt hlt]
  · intro sl hsel
    rw [StatefulList.previous, hsel]
    by_cases hz : sl.items.length = 0
    · simp [hz]
    · simp [hz]
  · intro sl hit
    have hz : sl.items.length = 0 := by rw [hit]; rfl
    constructor
    · rw [StatefulList.next]
      cases hsel : sl.selected with
      | none => simp
      | some i => simp [hz]
    · rw [StatefulList.previous]
      cases hsel : sl.selected with
      | none => simp
      | some i => simp [hz]

theorem c7_cursor_wraparound_witness :
    (StatefulList.next^[3] (⟨some 1, ["a", "b", "c"]⟩ : StatefulList)).selected
      = some 1
    ∧ (StatefulList.previous (⟨some 0, ["a", "b"]⟩ : StatefulList)).selected
      = some 1
    ∧ ((⟨some 0, []⟩ : StatefulList).next.selected = some 0
        ∧ (⟨some 0, []⟩ : StatefulList).previous.selected = some 0) :=
  ⟨c7_cursor_wraparound.1 ⟨some 1, ["a", "b", "c"]⟩ 1 rfl (by decide),
   c7_cursor_wraparound.2.1 ⟨some 0, ["a", "b"]⟩ rfl,
   c7_cursor_wraparound.2.2 ⟨some 0, []⟩ rfl⟩

/-- C4 counterexample: in `Editing` mode with two entries and the cursor
on index 0, an Up key only switches to `Normal`: the selection stays at
index 0, although both the advance and the retreat operation from index
0 over two entries would move it to index 1. -/
theorem c4_counterexample :
    step ⟨["a", "b"], ⟨some 0, ["a", "b"]⟩, [], 0, [], InputMode.Editing⟩ KeyCode.Up
      = StepResult.cont
          ⟨["a", "b"], ⟨some 0, ["a", "b"]⟩, [], 0, [], InputMode.Normal⟩
    ∧ (StatefulList.next ⟨some 0, ["a", "b"]⟩).selected = some 1
    ∧ (StatefulList.previous ⟨some 0, ["a", "b"]⟩).selected = some 1
    ∧ (some 0 : Option Nat) ≠ some 1 :=
  ⟨rfl, rfl, rfl, by decide⟩

/-- C4 amended: in `Editing` mode a move key (cursor up or down) stops
editing — the session returns to `Normal` (Browsing) — but performs no
move: the selection cursor and every other field are unchanged. -/
theorem c4_move_while_editing_only_stops_editing :
    ∀ a : App, a.input_mode = InputMode.Editing →
      step a KeyCode.Up = StepResult.cont { a with input_mode := InputMode.Normal }
      ∧ step a KeyCode.Down
          = StepResult.cont { a with input_mode := InputMode.Normal } := by
  intro a h
  cases a with
  | mk fh it inp pos prev mode =>
    obtain rfl : mode = InputMode.Editing := h
    exact ⟨rfl, rfl⟩

theorem c4_move_while_editing_only_stops_editing_witness :
    step ⟨["a"], ⟨some 0, ["a"]⟩, ['x'], 1, [], InputMode.Editing⟩ KeyCode.Up
      = StepResult.cont ⟨["a"], ⟨some 0, ["a"]⟩, ['x'], 1, [], InputMode.Normal⟩
    ∧ step ⟨["a"], ⟨some 0, ["a"]⟩, ['x'], 1, [], InputMode.Editing⟩ KeyCode.Down
      = StepResult.cont ⟨["a"], ⟨some 0, ["a"]⟩, ['x'], 1, [], InputMode.Normal⟩ :=
  c4_move_while_editing_only_stops_editing
    ⟨["a"], ⟨some 0, ["a"]⟩, ['x'], 1, [], InputMode.Editing⟩ rfl

/-- C5 counterexample: a confirm (Enter) in `Normal` mode with an empty
view does not leave the clipboard and the output untouched: the code
writes the empty string to the clipboard and `main` prints
`"Copied to clipboard: "`. -/
theorem c5_counterexample :
    step ⟨[], ⟨some 0, []⟩, [], 0, [], InputMode.Normal⟩ KeyCode.Enter
      = StepResult.exit (some "") "Copied to clipboard: "
    ∧ emitted (step ⟨[], ⟨some 0, []⟩, [], 0, [], InputMode.Normal⟩ KeyCode.Enter)
      = some "Copied to clipboard: " :=
  ⟨rfl, by decide⟩

/-- C5 amended: on quit (`q` in `Normal` mode) nothing is written to the
clipboard and nothing is printed; on a confirm (Enter) taken while the
view is empty, however, the empty string is written to the clipboard and
the message `"Copied to clipboard: "` is printed. -/
theorem c5_quit_silent_empty_confirm_writes :
    ∀ a : App, a.input_mode = InputMode.Normal →
      (step a (KeyCode.Char 'q') = StepResult.exit none ""
        ∧ emitted (step a (KeyCode.Char 'q')) = none)
      ∧ (a.items.items = [] →
          step a KeyCode.Enter = StepResult.exit (some "") "Copied to clipboard: "
          ∧ emitted (step a KeyCode.Enter) = some "Copied to clipboard: ") := by
  intro a h
  cases a with
  | mk fh it inp pos prev mode =>
    obtain rfl : mode = InputMode.Normal := h
    refine ⟨⟨rfl, rfl⟩, ?_⟩
    intro hempty
    cases it with
    | mk sel itms =>
      obtain rfl : itms = [] := hempty
      cases sel with
      | none => exact ⟨rfl, rfl⟩
      | some i => exact ⟨rfl, rfl⟩

theorem c5_quit_silent_empty_confirm_writes_witness :
    (step ⟨[], ⟨some 0, []⟩, [], 0, [], InputMode.Normal⟩ (KeyCode.Char 'q')
        = StepResult.exit none ""
      ∧ emitted (step ⟨[], ⟨some 0, []⟩, [], 0, [], InputMode.Normal⟩
          (KeyCode.Char 'q')) = none)
    ∧ (step ⟨[], ⟨some 0, []⟩, [], 0, [], InputMode.Normal⟩ KeyCode.Enter
        = StepResult.exit (some "") "Copied to clipboard: "
      ∧ emitted (step ⟨[], ⟨some 0, []⟩, [], 0, [], InputMode.Normal⟩
          KeyCode.Enter) = some "Copied to clipboard: ") :=
  ⟨(c5_quit_silent_empty_confirm_writes
      ⟨[], ⟨some 0, []⟩, [], 0, [], InputMode.Normal⟩ rfl).1,
   (c5_quit_silent_empty_confirm_writes
      ⟨[], ⟨some 0, []⟩, [], 0, [], InputMode.Normal⟩ rfl).2 rfl⟩

/-- No key event changes the loaded corpus: whenever the loop continues,
`full_history` is unchanged. -/
theorem step_preserves_full_history :
    ∀ (x : App) (k : KeyCode) (y : App),
      step x k = StepResult.cont y → y.full_history = x.full_history := by
  intro x k y hstep
  cases x with
  | mk fh it inp pos prev mode =>
    rw [step.eq_def] at hstep
    cases mode <;> cases k <;> dsimp only at hstep
    all_goals try split at hstep
    all_goals try split at hstep
    all_goals first
      | (cases hstep; rfl)
      | exact StepResult.noConfusion hstep

/-- Re-ranking on a tick never changes the loaded corpus either. -/
theorem on_tick_preserves_full_history :
    ∀ (score : List Char → List Char → Int) (x : App),
      (App.on_tick score x).full_history = x.full_history := by
  intro score x
  rw [App.on_tick.eq_def]
  cases hm : x.input_mode <;> dsimp only
  split <;> rfl

/-- C6: a cancel (Esc) while editing yields `Normal` (Browsing) mode, an
empty query, edit cursor 0, and a view equal to the full corpus — which
is the original corpus, since neither key handling nor ticking ever
changes `full_history`. -/
theorem c6_cancel_resets_filter :
    ∀ a : App, a.input_mode = InputMode.Editing →
      (step a KeyCode.Esc
        = StepResult.cont
            { a with input := [], input_pos := 0,
                     items := StatefulList.with_items a.full_history,
                     input_mode := InputMode.Normal })
      ∧ (StatefulList.with_items a.full_history).items = a.full_history
      ∧ (∀ (x : App) (k : KeyCode) (y : App),
          step x k = StepResult.cont y → y.full_history = x.full_history)
      ∧ (∀ (score : List Char → List Char → Int) (x : App),
          (App.on_tick score x).full_history = x.full_history) := by
  intro a h
  refine ⟨?_, rfl, step_preserves_full_history, on_tick_preserves_full_history⟩
  cases a with
  | mk fh it inp pos prev mode =>
    obtain rfl : mode = InputMode.Editing := h
    rfl

theorem c6_cancel_resets_filter_witness :
    step ⟨["ls"], ⟨some 0, []⟩, ['l', 'x'], 2, ['l'], InputMode.Editing⟩ KeyCode.Esc
      = StepResult.cont
          ⟨["ls"], ⟨some 0, ["ls"]⟩, [], 0, ['l'], InputMode.Normal⟩ :=
  (c6_cancel_resets_filter
    ⟨["ls"], ⟨some 0, []⟩, ['l', 'x'], 2, ['l'], InputMode.Editing⟩ rfl).1

/-- A constant-true relation is pairwise on every list. -/
theorem pairwise_of_all {α : Type} {R : α → α → Prop} (hR : ∀ a b, R a b) :
    ∀ l : List α, l.Pairwise R := by
  intro l
  induction l with
  | nil => exact List.Pairwise.nil
  | cons x xs ih => exact List.Pairwise.cons (fun y _ => hR x y) ih

/-- C9: ranking with the empty query is the identity — when a tick
recomputes the view for the empty query, the resulting view is the full
corpus itself, every entry present in unchanged order. -/
theorem c9_empty_query_identity :
    ∀ (score : List Char → List Char → Int) (a : App),
      a.input_mode = InputMode.Editing →
      a.input = [] →
      a.input_prev ≠ a.input →
      (App.on_tick score a).items.items = a.full_history := by
  intro score a hmode hinp hprev
  cases a with
  | mk fh it inp pos prev mode =>
    obtain rfl : mode = InputMode.Editing := hmode
    obtain rfl : inp = [] := hinp
    replace hprev : prev ≠ [] := hprev
    rw [App.on_tick.eq_def]
    dsimp only
    rw [if_pos hprev]
    dsimp only
    have h1 : fh.filterMap (fun s =>
        (fuzzy_match score s.toList []).map fun sc => (sc, s))
        = fh.map fun s => ((0 : Int), s) := by
      induction fh with
      | nil => rfl
      | cons x xs ih => simp only [List.filterMap_cons, List.map_cons, ih]; rfl
    rw [h1]
    have hpw : (fh.map fun s => ((0 : Int), s)).Pairwise
        (fun x y => (decide (y.1 ≤ x.1)) = true) := by
      rw [List.pairwise_map]
      exact pairwise_of_all (fun a b => by simp) _
    rw [List.mergeSort_of_sorted hpw]
    simp [StatefulList.with_items, List.map_map]

theorem c9_empty_query_identity_witness :
    (App.on_tick (fun _ _ => 0)
        ⟨["a", "b"], ⟨some 0, ["a", "b"]⟩, [], 0, ['x'], InputMode.Editing⟩).items.items
      = ["a", "b"] :=
  c9_empty_query_identity (fun _ _ => 0)
    ⟨["a", "b"], ⟨some 0, ["a", "b"]⟩, [], 0, ['x'], InputMode.Editing⟩
    rfl rfl (by decide)

/-- C8: an entry whose characters contain no subsequence equal to the
query is excluded from the recomputed view: the matcher reports no match
and the entry is filtered out before sorting. -/
theorem c8_no_subsequence_excluded :
    ∀ (score : List Char → List Char → Int) (a : App) (E : String),
      a.input_mode = InputMode.Editing →
      a.input_prev ≠ a.input →
      isSubseq a.input E.toList = false →
      E ∉ (App.on_tick score a).items.items := by
  intro score a E hmode hprev hsub
  cases a with
  | mk fh it inp pos prev mode =>
    obtain rfl : mode = InputMode.Editing := hmode
    replace hprev : prev ≠ inp := hprev
    replace hsub : isSubseq inp E.toList = false := hsub
    rw [App.on_tick.eq_def]
    dsimp only
    rw [if_pos hprev]
    dsimp only
    intro hmem
    rw [StatefulList.with_items] at hmem
    dsimp only at hmem
    obtain ⟨m, hm1, hm2⟩ := List.mem_map.mp hmem
    rw [List.mem_mergeSort] at hm1
    obtain ⟨s, hs1, hs2⟩ := List.mem_filterMap.mp hm1
    obtain ⟨sc, hsc1, hsc2⟩ := Option.map_eq_some'.mp hs2
    have hsE : s = E := by rw [← hm2, ← hsc2]
    subst hsE
    have hinp : inp ≠ [] := by
      intro hnil
      subst hnil
      simp only [isSubseq] at hsub
      exact Bool.noConfusion hsub
    rw [fuzzy_match, if_neg hinp] at hsc1
    rw [if_neg (by rw [hsub]; exact Bool.noConfusion)] at hsc1
    exact Option.noConfusion hsc1

theorem c8_no_subsequence_excluded_witness :
    "ls" ∉ (App.on_tick (fun _ _ => 0)
        ⟨["ls"], ⟨some 0, ["ls"]⟩, ['x'], 1, [], InputMode.Editing⟩).items.items :=
  c8_no_subsequence_excluded (fun _ _ => 0)
    ⟨["ls"], ⟨some 0, ["ls"]⟩, ['x'], 1, [], InputMode.Editing⟩ "ls"
    rfl (by decide) (by decide)
